import Mathlib

/-!
Shallow embedding of the column-projection core of `rs-csvtool` (`src/main.rs`).

Conventions of the embedding:
* Rust strings are modelled as `List Char` (the CLI delimiter argument, whose
  byte length matters, is modelled as its byte sequence `List Nat`).
* A record is a `List String` of field contents.
* `usize` values are modelled as `Nat`; the specs under scrutiny use small
  numbers, so wrap-around is irrelevant.
* Every aborting behaviour of the Rust code — `error_exit` (print + exit 1),
  a panicking `expect`/`unwrap`, and an out-of-bounds index — is modelled as
  `none` of an `Option` result.
-/

/-- Mirror of Rust `str::split(sep)`: splits at every occurrence of `sep`,
keeping empty pieces, and yields `[[]]` on the empty string. -/
def splitOnChar (sep : Char) : List Char → List (List Char)
  | [] => [[]]
  | c :: rest =>
    if c = sep then [] :: splitOnChar sep rest
    else
      match splitOnChar sep rest with
      | [] => [[c]]
      | t :: ts => (c :: t) :: ts

/-- Digit-accumulating loop of unsigned decimal parsing: fails on the first
non-digit character. -/
def parse_digits_go (acc : Nat) : List Char → Option Nat
  | [] => some acc
  | c :: rest =>
    if c.isDigit then parse_digits_go (acc * 10 + (c.toNat - 48)) rest
    else none

/-- Embedding of `parse_number` (main.rs:71-74): `str.parse::<usize>()` with a
panicking `expect`, i.e. an optional leading plus sign followed by at least one
decimal digit; failure (the panic) is `none`. -/
def parse_number (s : List Char) : Option Nat :=
  match s with
  | [] => none
  | '+' :: rest =>
    match rest with
    | [] => none
    | _ => parse_digits_go 0 rest
  | _ => parse_digits_go 0 s

/-- Embedding of `insert_column` (main.rs:76-84): grow the bitmap with zeroes
to length `value` if needed, then set slot `value - 1` to `1`.  For
`value = 0` the Rust code indexes `vector[0 - 1]` and panics, modelled as
`none`. -/
def insert_column (vector : List Nat) (value : Nat) : Option (List Nat) :=
  if value = 0 then none
  else
    let v :=
      if vector.length < value then vector ++ List.replicate (value - vector.length) 0
      else vector
    some (v.set (value - 1) 1)

/-- Loop `(start..=end).for_each(|c| insert_column(..., c))` of
`parse_columns`, phrased over the iteration count `n = end + 1 - start`. -/
def insert_range_go (columns : List Nat) (c : Nat) : Nat → Option (List Nat)
  | 0 => some columns
  | n + 1 =>
    match insert_column columns c with
    | none => none
    | some cols => insert_range_go cols (c + 1) n

/-- Inclusive range insertion `start..=end`; empty when `start > end`,
exactly as the Rust `RangeInclusive` iterator. -/
def insert_range (columns : List Nat) (start e : Nat) : Option (List Nat) :=
  insert_range_go columns start (e + 1 - start)

/-- One token of the cut-mode column spec (body of the loop in
`parse_columns`, main.rs:89-104): a range `N-M` when the token contains a
dash (rejecting tokens that do not split into exactly two parts), otherwise a
single column number. -/
def parse_token (columns : List Nat) (tok : List Char) : Option (List Nat) :=
  if tok.elem '-' then
    let range := splitOnChar '-' tok
    if range.length ≠ 2 then none
    else
      match parse_number (range.getD 0 []), parse_number (range.getD 1 []) with
      | some s, some e => insert_range columns s e
      | _, _ => none
  else
    match parse_number tok with
    | none => none
    | some n => insert_column columns n

/-- Folding `parse_token` over the comma-separated tokens, threading the
mutable `columns` vector of `parse_columns`. -/
def parse_columns_tokens (columns : List Nat) : List (List Char) → Option (List Nat)
  | [] => some columns
  | tok :: rest =>
    match parse_token columns tok with
    | none => none
    | some cols => parse_columns_tokens cols rest

/-- Embedding of `parse_columns` (main.rs:86-107). -/
def parse_columns (s : String) : Option (List Nat) :=
  parse_columns_tokens [] (splitOnChar ',' s.toList)

/-- Embedding of `parse_reorder` (main.rs:109-123): every comma-separated
token must be a plain number, and `column < 1` aborts with
`Invalid column`. -/
def parse_reorder_tokens : List (List Char) → Option (List Nat)
  | [] => some []
  | tok :: rest =>
    match parse_number tok with
    | none => none
    | some column =>
      if column < 1 then none
      else (parse_reorder_tokens rest).map (fun cols => column :: cols)

/-- Embedding of `parse_reorder` on the spec string. -/
def parse_reorder (s : String) : Option (List Nat) :=
  parse_reorder_tokens (splitOnChar ',' s.toList)

/-- Embedding of the per-record loop of `cut` (main.rs:187-191): walk the
indices of the record, keeping `record[idx]` whenever `idx < columns.len()` and
`columns[idx] == 1`. -/
def cut_select_go (columns : List Nat) : List String → Nat → List String
  | [], _ => []
  | field :: rest, idx =>
    if idx < columns.length ∧ columns.getD idx 0 = 1 then
      field :: cut_select_go columns rest (idx + 1)
    else cut_select_go columns rest (idx + 1)

/-- Cut-mode projection of one record. -/
def cut_select (columns : List Nat) (record : List String) : List String :=
  cut_select_go columns record 0

/-- The whole `cut` subcommand on already-tokenized rows (main.rs:175-200):
the spec is parsed while the config is built, before any row is read, and the
per-record projection is total. -/
def cut_run (s : String) (rows : List (List String)) : Option (List (List String)) :=
  match parse_columns s with
  | none => none
  | some cols => some (rows.map (fun r => cut_select cols r))

/-- Embedding of the per-record loop of `reorder` (main.rs:223-231): for each
resolved `column_idx`, abort (`error_exit`) when `column_idx > record.len()`,
otherwise push `record.get(column_idx).unwrap()` — whose panic at
`column_idx = record.len()` is also `none`. -/
def reorder_project (columns : List Nat) (record : List String) : Option (List String) :=
  match columns with
  | [] => some []
  | column_idx :: rest =>
    if column_idx > record.length then none
    else
      match record[column_idx]? with
      | none => none
      | some f => (reorder_project rest record).map (fun out => f :: out)

/-- Projecting a whole stream of records; the first failing record aborts the
run. -/
def project_rows (columns : List Nat) : List (List String) → Option (List (List String))
  | [] => some []
  | r :: rest =>
    match reorder_project columns r with
    | none => none
    | some out => (project_rows columns rest).map (fun outs => out :: outs)

/-- The `reorder` subcommand with a numeric `--columns` spec
(main.rs:203-240, `config.columns` branch). -/
def reorder_run_columns (s : String) (rows : List (List String)) :
    Option (List (List String)) :=
  match parse_reorder s with
  | none => none
  | some columns => project_rows columns rows

/-- `HashMap::insert` followed by lookups, modelled functionally: the new
binding shadows whatever was stored for the same key before. -/
def hm_insert (m : String → Option Nat) (k : String) (v : Nat) :
    String → Option Nat :=
  fun n => if n = k then some v else m n

/-- The header-indexing loop of `fields_to_columns` (main.rs:133-135):
`map.insert(field_i, i)` for `i` in `0..header.len()`. -/
def header_map_go : List String → Nat → (String → Option Nat) → String → Option Nat
  | [], _, m => m
  | f :: rest, i, m => header_map_go rest (i + 1) (hm_insert m f i)

/-- Name → 0-based column index map built from the header record. -/
def header_map (header : List String) : String → Option Nat :=
  header_map_go header 0 (fun _ => none)

/-- The resolution loop of `fields_to_columns` (main.rs:137-143): each
requested field name is looked up in the header map (a miss panics → `none`)
and its 0-based index appended in request order. -/
def resolve_fields (m : String → Option Nat) : List String → Option (List Nat)
  | [] => some []
  | f :: rest =>
    match m f with
    | none => none
    | some c => (resolve_fields m rest).map (fun cs => c :: cs)

/-- Embedding of `fields_to_columns` (main.rs:125-148): consume the first
record as header (`none` models the `No header line found` panic on an empty
stream), resolve the requested names, and return the resolved 0-based
columns, the projected header row (the requested names, written out first),
and the remaining records of the stream. -/
def fields_to_columns (rows : List (List String)) (fields : List String) :
    Option (List Nat × List String × List (List String)) :=
  match rows with
  | [] => none
  | header :: rest =>
    (resolve_fields (header_map header) fields).map (fun cols => (cols, fields, rest))

/-- The `reorder` subcommand with a `--fields` name list (main.rs:213-215 and
the projection loop): header consumed and echoed in request order, then every
data row projected through the resolved columns. -/
def reorder_run_fields (fields : List String) (rows : List (List String)) :
    Option (List (List String)) :=
  match fields_to_columns rows fields with
  | none => none
  | some (cols, hdr, rest) =>
    match project_rows cols rest with
    | none => none
    | some outs => some (hdr :: outs)

/-- Embedding of `get_delimiter` (main.rs:13-23) over the byte
sequence: more than one byte aborts via `error_exit`, the empty string panics
at `s.as_bytes()[0]` (both `none`), one byte is returned as the delimiter,
and an absent argument defaults to `,` (byte 44). -/
def get_delimiter (arg : Option (List Nat)) : Option Nat :=
  match arg with
  | none => some 44
  | some s =>
    if s.length > 1 then none
    else s.head?

/-!  Claim theorems C1-C4, C8, C10.  -/

/-- C1: the claim says a numeric reorder spec emits, at output position `j`,
the input field at 1-based position `spec[j]`, so `"3,1,3"` on
`["a","b","c"]` would yield `["c","a","c"]`.  The code instead uses the
parsed 1-based numbers directly as 0-based `record.get` indices: `"3,1,3"`
on `["a","b","c"]` aborts (the `get(3)` unwrap panics), and `"1"` on
`["a","b"]` emits `["b"]` rather than `["a"]`. -/
theorem c1_reorder_numeric_misindexes :
    reorder_run_columns "3,1,3" [["a", "b", "c"]] = none
    ∧ reorder_run_columns "1" [["a", "b"]] = some [["b"]] := by
  decide

/-- C2: the claim says projection of a resolved column `c` fails exactly when
`c - 1 ≥ record.len()` and succeeds (with field `c`, 1-based) otherwise.  The
code fails for every `c ≥ record.len()` — `error_exit` when `c > len`, an
unwrap panic on `record.get(len)` when `c = len` — and a succeeding lookup
reads `record[c]`, not `record[c-1]`: with record `["a","b"]`, `c = 2`
(where `c - 1 = 1 < 2` demands success) fails, `c = 3` fails, and `c = 1`
yields `"b"`. -/
theorem c2_reorder_bound_check_eval :
    reorder_project [2] ["a", "b"] = none
    ∧ reorder_project [3] ["a", "b"] = none
    ∧ reorder_project [1] ["a", "b"] = some ["b"] := by
  decide

/-- C3: the cut specs `"0"` (column zero is invalid under 1-based addressing)
and `"abc"` (non-numeric) are rejected while the configuration is built,
before any row is read, so the run fails with zero output rows whatever the
input stream holds. -/
theorem c3_invalid_cut_spec_rejected :
    ∀ rows : List (List String),
      cut_run "0" rows = none ∧ cut_run "abc" rows = none := by
  intro rows
  constructor
  · unfold cut_run
    rw [show parse_columns "0" = none from rfl]
  · unfold cut_run
    rw [show parse_columns "abc" = none from rfl]

/-- C4: reorder by field names: with header `["a","b","c"]` and requested
fields `["b","a"]`, the header row `["b","a"]` is emitted first and the data
row `["1","2","3"]` is projected to `["2","1"]`; in general a successful
resolution echoes the requested names as the output header, keeps the data
rows, and resolves each requested name through the header map in request
order. -/
theorem c4_reorder_by_fields :
    reorder_run_fields ["b", "a"] [["a", "b", "c"], ["1", "2", "3"]]
      = some [["b", "a"], ["2", "1"]]
    ∧ ∀ (header : List String) (rows : List (List String)) (fields : List String)
        (cols : List Nat) (out : List String) (rest : List (List String)),
        fields_to_columns (header :: rows) fields = some (cols, out, rest) →
        out = fields ∧ rest = rows ∧ resolve_fields (header_map header) fields = some cols := by
  refine ⟨by decide, ?_⟩
  intro header rows fields cols out rest h
  simp only [fields_to_columns, Option.map_eq_some'] at h
  obtain ⟨cs, hcs, heq⟩ := h
  simp only [Prod.mk.injEq] at heq
  obtain ⟨h1, h2, h3⟩ := heq
  exact ⟨h2.symm, h3.symm, by rw [hcs, h1]⟩

/-- C8: an explicit delimiter argument is accepted, and yields its byte,
exactly when it is one byte long; the empty argument and any multi-byte
argument fail while the configuration is built; an absent argument defaults
to the comma byte 44. -/
theorem c8_delimiter_single_byte :
    get_delimiter none = some 44
    ∧ (∀ b : Nat, get_delimiter (some [b]) = some b)
    ∧ ∀ bs : List Nat, bs.length ≠ 1 → get_delimiter (some bs) = none := by
  refine ⟨rfl, fun b => rfl, ?_⟩
  intro bs h
  match bs with
  | [] => rfl
  | [b] => exact absurd rfl h
  | b :: b2 :: rest =>
    have hlen : (b :: b2 :: rest).length > 1 := by
      simp only [List.length_cons]
      omega
    show (if (b :: b2 :: rest).length > 1 then none else (b :: b2 :: rest).head?) = none
    rw [if_pos hlen]

/-- C8 witness: the delimiter rules evaluated at the bytes of "A", "", and
"AB". -/
theorem c8_delimiter_single_byte_witness :
    get_delimiter (some [65]) = some 65
    ∧ get_delimiter (some []) = none
    ∧ get_delimiter (some [65, 66]) = none :=
  ⟨c8_delimiter_single_byte.2.1 65,
   c8_delimiter_single_byte.2.2 [] (by decide),
   c8_delimiter_single_byte.2.2 [65, 66] (by decide)⟩

/-- C10: reorder by field names on an empty input stream: consuming the
header fails (the `No header line found` panic) and the whole run aborts
with no output rows — it never succeeds with an empty output. -/
theorem c10_fields_need_header :
    ∀ fields : List String,
      fields_to_columns [] fields = none ∧ reorder_run_fields fields [] = none := by
  intro fields
  exact ⟨rfl, rfl⟩

/-!  Helper lemmas about `cut_select_go`.  -/

/-- Whatever the bitmap, the cut loop only ever keeps fields of the record,
in their original order. -/
theorem cut_select_go_sublist (columns : List Nat) :
    ∀ (record : List String) (idx : Nat), (cut_select_go columns record idx).Sublist record := by
  intro record
  induction record with
  | nil => intro idx; exact List.Sublist.refl []
  | cons f rest ih =>
    intro idx
    by_cases h : idx < columns.length ∧ columns.getD idx 0 = 1
    · simp only [cut_select_go, if_pos h]
      exact List.Sublist.cons₂ f (ih (idx + 1))
    · simp only [cut_select_go, if_neg h]
      exact List.Sublist.cons f (ih (idx + 1))

/-- The cut loop keeps exactly the fields whose position is inside the bitmap
and marked with `1`, in position order. -/
theorem cut_select_go_eq_filter (columns : List Nat) :
    ∀ (record : List String) (idx : Nat),
      cut_select_go columns record idx =
        ((List.enumFrom idx record).filter
          (fun p => decide (p.1 < columns.length ∧ columns.getD p.1 0 = 1))).map Prod.snd := by
  intro record
  induction record with
  | nil => intro idx; rfl
  | cons f rest ih =>
    intro idx
    by_cases h : idx < columns.length ∧ columns.getD idx 0 = 1
    · simp only [cut_select_go, if_pos h, List.enumFrom, List.filter_cons,
        decide_eq_true h, if_true, List.map_cons]
      rw [ih (idx + 1)]
    · simp only [cut_select_go, if_neg h, List.enumFrom, List.filter_cons,
        decide_eq_false h, if_false, Bool.false_eq_true]
      rw [ih (idx + 1)]

/-- Positions past the bitmap are never selected. -/
theorem cut_select_go_stop (columns : List Nat) :
    ∀ (record : List String) (idx : Nat), columns.length ≤ idx →
      cut_select_go columns record idx = [] := by
  intro record
  induction record with
  | nil => intro idx _; rfl
  | cons f rest ih =>
    intro idx h
    have hn : ¬(idx < columns.length ∧ columns.getD idx 0 = 1) :=
      fun hc => absurd hc.1 (Nat.not_lt.mpr h)
    simp only [cut_select_go, if_neg hn]
    exact ih (idx + 1) (Nat.le_succ_of_le h)

/-- A record longer than the bitmap projects like its truncation to the
length of the bitmap: the tail is simply unselected. -/
theorem cut_select_go_take (columns : List Nat) :
    ∀ (record : List String) (idx : Nat),
      cut_select_go columns record idx =
        cut_select_go columns (record.take (columns.length - idx)) idx := by
  intro record
  induction record with
  | nil => intro idx; rw [List.take_nil]
  | cons f rest ih =>
    intro idx
    by_cases h : idx < columns.length
    · have htake : (f :: rest).take (columns.length - idx)
          = f :: rest.take (columns.length - (idx + 1)) := by
        rw [show columns.length - idx = (columns.length - (idx + 1)) + 1 from by omega,
          List.take_succ_cons]
      rw [htake]
      simp only [cut_select_go]
      rw [ih (idx + 1)]
    · rw [show columns.length - idx = 0 from by omega, List.take_zero,
        cut_select_go_stop columns (f :: rest) idx (Nat.not_lt.mp h)]
      rfl

/-- C6: in cut mode the output record is always a subsequence of the input
record — precisely the fields at the selected positions, in original input
order — and a bitmap shorter than the record merely leaves the trailing
columns unselected (the projection is total, never an error). -/
theorem c6_cut_is_subsequence :
    ∀ (columns : List Nat) (record : List String),
      (cut_select columns record).Sublist record
      ∧ cut_select columns record =
          ((record.enum).filter
            (fun p => decide (p.1 < columns.length ∧ columns.getD p.1 0 = 1))).map Prod.snd
      ∧ cut_select columns record = cut_select columns (record.take columns.length) := by
  intro columns record
  refine ⟨cut_select_go_sublist columns record 0, cut_select_go_eq_filter columns record 0, ?_⟩
  have h := cut_select_go_take columns record 0
  rw [Nat.sub_zero] at h
  exact h

/-!  Helper lemmas about `header_map`.  -/

/-- Position of the last occurrence of `name` inside `l`, if any. -/
def last_within : List String → String → Option Nat
  | [], _ => none
  | f :: rest, name =>
    match last_within rest name with
    | some k => some (k + 1)
    | none => if f = name then some 0 else none

/-- The insertion loop resolves a name to the offset of its last occurrence
in the scanned segment, and falls back to the incoming map otherwise. -/
theorem header_map_go_lookup :
    ∀ (header : List String) (i : Nat) (m : String → Option Nat) (name : String),
      header_map_go header i m name =
        match last_within header name with
        | some k => some (i + k)
        | none => m name := by
  intro header
  induction header with
  | nil => intro i m name; rfl
  | cons f rest ih =>
    intro i m name
    simp only [header_map_go]
    rw [ih (i + 1) (hm_insert m f i) name]
    cases hk : last_within rest name with
    | some k =>
      simp only [last_within, hk]
      rw [show i + 1 + k = i + (k + 1) from by omega]
    | none =>
      simp only [last_within, hk, hm_insert]
      by_cases hf : f = name
      · rw [if_pos hf, if_pos hf.symm]
        rfl
      · rw [if_neg hf, if_neg (fun hn => hf hn.symm)]

/-- A name that occurs nowhere in `l` has no last occurrence. -/
theorem last_within_of_absent :
    ∀ (l : List String) (name : String),
      (∀ j, j < l.length → l.getD j "" ≠ name) → last_within l name = none := by
  intro l
  induction l with
  | nil => intro name _; rfl
  | cons f rest ih =>
    intro name h
    have hrest : last_within rest name = none :=
      ih name (fun j hj => h (j + 1) (by simp only [List.length_cons]; omega))
    simp only [last_within, hrest]
    exact if_neg (h 0 (by simp only [List.length_cons]; omega))

/-- If `name` sits at position `i` and nowhere later, `i` is its last
occurrence. -/
theorem last_within_of_last :
    ∀ (l : List String) (name : String) (i : Nat),
      i < l.length → l.getD i "" = name →
      (∀ j, i < j → j < l.length → l.getD j "" ≠ name) →
      last_within l name = some i := by
  intro l
  induction l with
  | nil => intro name i hi _ _; exact absurd hi (Nat.not_lt_zero i)
  | cons f rest ih =>
    intro name i hi hget hafter
    match i with
    | 0 =>
      have hrest : last_within rest name = none := by
        apply last_within_of_absent
        intro j hj
        exact hafter (j + 1) (Nat.succ_pos j) (by simp only [List.length_cons]; omega)
      simp only [last_within, hrest]
      exact if_pos hget
    | k + 1 =>
      have hk : last_within rest name = some k := by
        apply ih name k (by simp only [List.length_cons] at hi; omega) hget
        intro j hj hjl
        exact hafter (j + 1) (by omega) (by simp only [List.length_cons]; omega)
      simp only [last_within, hk]

/-- C7: with duplicate header names, the header map deterministically
resolves a name to the 0-based position of its last occurrence in the
header. -/
theorem c7_header_map_last_occurrence :
    ∀ (header : List String) (name : String) (i : Nat),
      i < header.length → header.getD i "" = name →
      (∀ j, i < j → j < header.length → header.getD j "" ≠ name) →
      header_map header name = some i := by
  intro header name i hi hget hafter
  unfold header_map
  rw [header_map_go_lookup header 0 (fun _ => none) name,
    last_within_of_last header name i hi hget hafter]
  show some (0 + i) = some i
  rw [Nat.zero_add]

/-- C7 witness: in header `["a","b","a"]` the name `"a"` resolves to
position 2, its last occurrence. -/
theorem c7_header_map_last_occurrence_witness :
    header_map ["a", "b", "a"] "a" = some 2 :=
  c7_header_map_last_occurrence ["a", "b", "a"] "a" 2 (by decide) (by decide)
    (fun j h1 h2 => by simp only [List.length_cons, List.length_nil] at h2; omega)

/-!  Helper lemmas about the range-spec parser.  -/

/-- A text without the separator is one single token. -/
theorem splitOnChar_of_not_mem :
    ∀ (sep : Char) (l : List Char), sep ∉ l → splitOnChar sep l = [l] := by
  intro sep l
  induction l with
  | nil => intro _; rfl
  | cons c rest ih =>
    intro h
    have hc : ¬(c = sep) := fun hcs => h (by rw [hcs]; exact List.mem_cons_self sep rest)
    have hrest : sep ∉ rest := fun hm => h (List.mem_cons_of_mem c hm)
    simp only [splitOnChar, if_neg hc, ih hrest]

/-- Setting the freshly grown zero slot of an all-ones bitmap extends the
all-ones bitmap by one. -/
theorem set_replicate_append :
    ∀ k : Nat, (List.replicate k (1 : Nat) ++ [0]).set k 1 = List.replicate (k + 1) 1 := by
  intro k
  induction k with
  | zero => rfl
  | succ n ih =>
    have h1 : List.replicate (n + 1) (1 : Nat) ++ [0] = 1 :: (List.replicate n 1 ++ [0]) := by
      rw [List.replicate_succ, List.cons_append]
    rw [h1]
    have h2 : ((1 : Nat) :: (List.replicate n 1 ++ [0])).set (n + 1) 1
        = 1 :: (List.replicate n 1 ++ [0]).set n 1 := rfl
    rw [h2, ih, ← List.replicate_succ]

/-- Inserting column `k + 1` into the all-ones bitmap of length `k` grows it
to the all-ones bitmap of length `k + 1`. -/
theorem insert_column_ones :
    ∀ k : Nat, insert_column (List.replicate k 1) (k + 1) = some (List.replicate (k + 1) 1) := by
  intro k
  unfold insert_column
  rw [if_neg (Nat.succ_ne_zero k)]
  simp only [List.length_replicate]
  rw [if_pos (Nat.lt_succ_self k)]
  rw [show k + 1 - k = 1 from by omega]
  rw [show List.replicate 1 (0 : Nat) = [0] from rfl]
  rw [show k + 1 - 1 = k from by omega]
  rw [set_replicate_append]

/-- Running the `start..=end` insertion loop from `k + 1` on the all-ones
bitmap of length `k` produces the all-ones bitmap covering every inserted
column. -/
theorem insert_range_go_ones :
    ∀ (n k : Nat),
      insert_range_go (List.replicate k 1) (k + 1) n = some (List.replicate (k + n) 1) := by
  intro n
  induction n with
  | zero => intro k; rfl
  | succ m ih =>
    intro k
    simp only [insert_range_go, insert_column_ones k]
    rw [show k + (m + 1) = (k + 1) + m from by omega]
    exact ih (k + 1)

/-- Every slot of an all-ones bitmap reads `1`. -/
theorem getD_replicate_one :
    ∀ (N idx : Nat), idx < N → (List.replicate N (1 : Nat)).getD idx 0 = 1 := by
  intro N
  induction N with
  | zero => intro idx h; exact absurd h (Nat.not_lt_zero idx)
  | succ n ih =>
    intro idx h
    match idx with
    | 0 => rfl
    | m + 1 => exact ih m (by omega)

/-- Under a bitmap of all ones covering the whole record, the cut loop keeps
every field. -/
theorem cut_select_go_ones :
    ∀ (record : List String) (N idx : Nat), idx + record.length ≤ N →
      cut_select_go (List.replicate N 1) record idx = record := by
  intro record
  induction record with
  | nil => intro N idx _; rfl
  | cons f rest ih =>
    intro N idx h
    have hidx : idx < N := by simp only [List.length_cons] at h; omega
    have hsel : idx < (List.replicate N (1 : Nat)).length ∧
        (List.replicate N (1 : Nat)).getD idx 0 = 1 := by
      rw [List.length_replicate]
      exact ⟨hidx, getD_replicate_one N idx hidx⟩
    simp only [cut_select_go, if_pos hsel]
    rw [ih N (idx + 1) (by simp only [List.length_cons] at h; omega)]

/-- C5: parsing the full-range cut spec `1-N` yields the all-ones bitmap of
length `N`, and cutting any record of exactly `N` fields with it returns the
record unchanged. -/
theorem c5_cut_full_range_roundtrip :
    ∀ (s : String) (sN : List Char) (N : Nat) (record : List String),
      splitOnChar ',' s.toList = ['1' :: '-' :: sN] →
      '-' ∉ sN →
      parse_number sN = some N →
      1 ≤ N →
      record.length = N →
      cut_run s [record] = some [record] := by
  intro s sN N record hsplit hnd hnum _ hlen
  have htok : parse_token [] ('1' :: '-' :: sN) = some (List.replicate N 1) := by
    have helem : ('1' :: '-' :: sN).elem '-' = true := by
      rw [List.elem_eq_mem]
      exact decide_eq_true (List.mem_cons_of_mem '1' (List.mem_cons_self '-' sN))
    have h0 : splitOnChar '-' sN = [sN] := splitOnChar_of_not_mem '-' sN hnd
    have h1 : splitOnChar '-' ('-' :: sN) = [] :: splitOnChar '-' sN := by
      show (if '-' = '-' then [] :: splitOnChar '-' sN else _) = _
      rw [if_pos rfl]
    have hsplit2 : splitOnChar '-' ('1' :: '-' :: sN) = [['1'], sN] := by
      show (if '1' = '-' then [] :: splitOnChar '-' ('-' :: sN)
            else
              match splitOnChar '-' ('-' :: sN) with
              | [] => [['1']]
              | t :: ts => ('1' :: t) :: ts) = [['1'], sN]
      rw [if_neg (by decide : ¬('1' = '-')), h1, h0]
    simp only [parse_token, helem, if_true, hsplit2]
    rw [if_neg (by simp : ¬(([['1'], sN] : List (List Char)).length ≠ 2))]
    simp only [List.getD_cons_zero, List.getD_cons_succ]
    rw [show parse_number ['1'] = some 1 from rfl, hnum]
    show insert_range_go [] 1 (N + 1 - 1) = some (List.replicate N 1)
    rw [show N + 1 - 1 = N from by omega]
    have h := insert_range_go_ones N 0
    simp only [List.replicate, Nat.zero_add] at h
    exact h
  unfold cut_run parse_columns
  rw [hsplit]
  simp only [parse_columns_tokens, htok]
  have hsel : cut_select (List.replicate N 1) record = record :=
    cut_select_go_ones record N 0 (by omega)
  rw [List.map_cons, List.map_nil, hsel]

/-- C5 witness: the spec `1-3` on the three-field record
`["x","y","z"]`. -/
theorem c5_cut_full_range_roundtrip_witness :
    cut_run "1-3" [["x", "y", "z"]] = some [["x", "y", "z"]] :=
  c5_cut_full_range_roundtrip "1-3" ['3'] 3 ["x", "y", "z"] (by decide) (by decide)
    (by decide) (by decide) (by decide)

/-- C9: a reversed range token `N-M` with `N > M` inside a cut column spec
parses successfully, inserts nothing, and the resulting bitmap equals the one
produced by the same spec with that token removed. -/
theorem c9_reversed_range_noop :
    ∀ (pre post : List (List Char)) (t sN sM : List Char) (N M : Nat) (cols : List Nat),
      t.elem '-' = true →
      splitOnChar '-' t = [sN, sM] →
      parse_number sN = some N →
      parse_number sM = some M →
      M < N →
      parse_columns_tokens cols (pre ++ t :: post) = parse_columns_tokens cols (pre ++ post) := by
  intro pre post t sN sM N M
  induction pre with
  | nil =>
    intro cols helem hsplit hn hm hlt
    have htok : parse_token cols t = some cols := by
      simp only [parse_token, helem, if_true, hsplit]
      rw [if_neg (by simp : ¬(([sN, sM] : List (List Char)).length ≠ 2))]
      simp only [List.getD_cons_zero, List.getD_cons_succ]
      rw [hn, hm]
      show insert_range_go cols N (M + 1 - N) = some cols
      rw [show M + 1 - N = 0 from by omega]
      rfl
    simp only [List.nil_append, parse_columns_tokens, htok]
  | cons p pre ih =>
    intro cols helem hsplit hn hm hlt
    simp only [List.cons_append, parse_columns_tokens]
    cases hp : parse_token cols p with
    | none => rfl
    | some cols2 => exact ih cols2 helem hsplit hn hm hlt

/-- C9 witness: in the token list of spec `1,5-3,2`, dropping the reversed
range `5-3` leaves the parse unchanged. -/
theorem c9_reversed_range_noop_witness :
    parse_columns_tokens [] [['1'], ['5', '-', '3'], ['2']]
      = parse_columns_tokens [] [['1'], ['2']] :=
  c9_reversed_range_noop [['1']] [['2']] ['5', '-', '3'] ['5'] ['3'] 5 3 []
    (by decide) (by decide) (by decide) (by decide) (by decide)

/-- C4 witness: the general resolution clause evaluated on header
`["a","b","c"]` and requested fields `["b","a"]`. -/
theorem c4_reorder_by_fields_witness :
    resolve_fields (header_map ["a", "b", "c"]) ["b", "a"] = some [1, 0] :=
  (c4_reorder_by_fields.2 ["a", "b", "c"] [["1", "2", "3"]] ["b", "a"] [1, 0]
    ["b", "a"] [["1", "2", "3"]] (by decide)).2.2
